import Mathlib

/-
Verification development for minio/xml_marshal.py.

The module has two halves: six XML marshallers (domain object -> element
tree -> serialized bytes) and a decoder (`xml_to_dict` / `etree_to_dict`)
folding a parsed element tree into a nested loosely-typed mapping.

Shallow embedding conventions:
* Python strings are Lean `String`s (`List Char` underneath); the byte
  output of the serializer is modelled as the `String` of its characters
  (all documents relevant here are ASCII).
* A Python dict with string keys is an insertion-ordered association list.
* `etree_to_dict` returns the singleton dict `{elem.tag: value}`; it is
  embedded as the pair `(tag, value)`.
* Python truthiness on strings (`if s:`) is `s ≠ None ∧ s ≠ ""`, on lists
  and dicts it is non-emptiness, on optional objects it is presence.
-/

namespace MinioXml

/-- The `_S3_NAMESPACE` constant (xml_marshal.py line 34). -/
def _S3_NAMESPACE : String := "http://s3.amazonaws.com/doc/2006-03-01/"

/-- Worker for Python `s.replace(pat, '')`: removes every (leftmost,
non-overlapping) occurrence of `pat`.  The `Nat` argument counts pattern
characters still to be skipped after a match was found at an earlier
position. -/
def removeAllGo (pat : List Char) : Nat → List Char → List Char
  | _, [] => []
  | 0, c :: rest =>
      if pat.isPrefixOf (c :: rest) ∧ pat ≠ [] then
        removeAllGo pat (pat.length - 1) rest
      else
        c :: removeAllGo pat 0 rest
  | k + 1, _ :: rest => removeAllGo pat k rest

/-- Python `s.replace(pat, '')` (the only form of `replace` the source
uses, at xml_marshal.py line 65). -/
def pyRemove (s pat : String) : String := String.mk (removeAllGo pat.data 0 s.data)

/-- Python `s.strip()` (whitespace trimming at both ends; ASCII whitespace
suffices for the documents at hand). -/
def pyStrip (s : String) : String :=
  String.mk (((s.data.dropWhile Char.isWhitespace).reverse.dropWhile Char.isWhitespace).reverse)

/-- Python `s.lower()` (used on boolean-valued option strings). -/
def pyLower (s : String) : String := String.mk (s.data.map Char.toLower)

/-- The braced namespace marker `'{' + _S3_NAMESPACE + '}'` built at
xml_marshal.py line 64. -/
def nsB : String := String.mk ('\x7b' :: _S3_NAMESPACE.data ++ ['\x7d'])

/-- An `xml.etree.ElementTree.Element`: tag, attributes (insertion
ordered), optional text, ordered children. -/
inductive Tree where
  | mk (tag : String) (attrib : List (String × String)) (text : Option String)
       (children : List Tree)

def Tree.tag : Tree → String
  | .mk t _ _ _ => t

def Tree.attrib : Tree → List (String × String)
  | .mk _ a _ _ => a

def Tree.text : Tree → Option String
  | .mk _ _ x _ => x

def Tree.children : Tree → List Tree
  | .mk _ _ _ c => c

/-- The loosely-typed values produced by `etree_to_dict`: `None`, strings,
dicts and lists. -/
inductive Value where
  | null
  | str (s : String)
  | map (entries : List (String × Value))
  | list (vs : List Value)

/-- Python `d[k] = v` on an insertion-ordered dict: overwrite in place if
the key exists, else append. -/
def dictInsert : List (String × Value) → String → Value → List (String × Value)
  | [], k, v => [(k, v)]
  | (k', v') :: rest, k, v =>
      if k' = k then (k', v) :: rest else (k', v') :: dictInsert rest k v

/-- Models `dd[k].append(v)` on the `defaultdict(list)` of xml_marshal.py line 70:
append to the group of `k`, creating it (in insertion order) if absent. -/
def addToGroup : List (String × List Value) → String → Value → List (String × List Value)
  | [], k, v => [(k, [v])]
  | (k', vs) :: rest, k, v =>
      if k' = k then (k', vs ++ [v]) :: rest else (k', vs) :: addToGroup rest k v

/-- The two loops at xml_marshal.py lines 71-78 differ only in whether the
appended value is `[v]` or `v`; `w` is that per-value wrapper. -/
def groupPairs (w : Value → Value) (pairs : List (String × Value)) :
    List (String × List Value) :=
  pairs.foldl (fun g p => addToGroup g p.1 (w p.2)) []

/-- The comprehension `\x7bk: v[0] if len(v) == 1 else v for k, v in dd.items()\x7d`
(xml_marshal.py line 79). -/
def finalize (groups : List (String × List Value)) : List (String × Value) :=
  groups.map fun g => (g.1, match g.2 with
    | [v] => v
    | vs => Value.list vs)

/-- The wrapper chosen at xml_marshal.py line 71 from the FIRST child's
(namespace-stripped) tag: all values are wrapped in singleton lists when
that tag is `Rule`, none otherwise. -/
def ruleWrap (v : Value) : Value := Value.list [v]

def wrapOf (c : Tree) : Value → Value :=
  if pyRemove c.tag nsB = "Rule" then ruleWrap else id

/-- Models `d[elem.tag][key] = v` / `d[elem.tag].update(...)`: insertion into the
mapping held under the element's tag (no-op on the non-dict values, where
the source never performs it). -/
def vInsert (m : Value) (k : String) (v : Value) : Value :=
  match m with
  | Value.map es => Value.map (dictInsert es k v)
  | m => m

/-- Lines 80-81: `if elem.attrib: d[elem.tag].update(('@' + k, v) ...)`
(folding over the empty attribute list is the same no-op as the guarded
update). -/
def attribStep (attrib : List (String × String)) (m : Value) : Value :=
  attrib.foldl (fun m kv => vInsert m ("@" ++ kv.1) (Value.str kv.2)) m

/-- Lines 82-88: `if elem.text:` (falsy for `None` and `""`), then either
merge a `#text` entry (when the element also has children or attributes,
`hasOther`) or replace the value by the stripped text scalar. -/
def textStep (text : Option String) (hasOther : Bool) (m : Value) : Value :=
  match text with
  | none => m
  | some s =>
      if s = "" then m
      else
        let txt := pyStrip s
        if hasOther then
          if txt ≠ "" then vInsert m "#text" (Value.str txt) else m
        else Value.str txt

mutual
/-- Function `etree_to_dict` (xml_marshal.py lines 62-89).  The returned singleton
dict `{elem.tag: value}` is embedded as the pair `(tag, value)`:
`d0` is line 67, `d1` lines 68-79, `attribStep` lines 80-81, `textStep`
lines 82-88. -/
def etree_to_dict : Tree → String × Value
  | .mk tag0 attrib text children =>
      let tag := pyRemove tag0 nsB
      let d0 : Value := if attrib.isEmpty then Value.null else Value.map []
      let d1 : Value :=
        match children with
        | [] => d0
        | c :: cs =>
            let pairs := etree_to_dict c :: etreeListDict cs
            Value.map (finalize (groupPairs (wrapOf c) pairs))
      (tag, textStep text (!children.isEmpty || !attrib.isEmpty) (attribStep attrib d1))
/-- Models `map(etree_to_dict, children)` (xml_marshal.py lines 72 and 76). -/
def etreeListDict : List Tree → List (String × Value)
  | [] => []
  | t :: ts => etree_to_dict t :: etreeListDict ts
end

mutual
/-- The state of the input tree after `etree_to_dict` returns: the
in-place assignment `elem.tag = elem.tag.replace(ns, '')` at
xml_marshal.py line 65 fires once per visited node, and every node is
visited. -/
def etreeFinalTree : Tree → Tree
  | .mk tag attrib text children =>
      .mk (pyRemove tag nsB) attrib text (etreeFinalList children)
def etreeFinalList : List Tree → List Tree
  | [] => []
  | t :: ts => etreeFinalTree t :: etreeFinalList ts
end

/-- Function `xml.etree.ElementTree._escape_cdata` applied per character (the
replacement strings introduce no character that a later replacement would
rewrite, so the per-character map agrees with the sequential replaces). -/
def escapeCdataChar (c : Char) : String :=
  if c = '&' then "&amp;"
  else if c = '<' then "&lt;"
  else if c = '>' then "&gt;"
  else String.mk [c]

def escapeCdata (s : String) : String :=
  s.data.foldl (fun acc c => acc ++ escapeCdataChar c) ""

/-- Function `xml.etree.ElementTree._escape_attrib` applied per character. -/
def escapeAttribChar (c : Char) : String :=
  if c = '&' then "&amp;"
  else if c = '<' then "&lt;"
  else if c = '>' then "&gt;"
  else if c = '"' then "&quot;"
  else if c = '\r' then "&#13;"
  else if c = '\n' then "&#10;"
  else if c = '\t' then "&#09;"
  else String.mk [c]

def escapeAttrib (s : String) : String :=
  s.data.foldl (fun acc c => acc ++ escapeAttribChar c) ""

mutual
/-- Function `xml.etree.ElementTree._serialize_xml` with the defaults used by
`get_xml_data` (no XML declaration, short empty elements): attributes in
insertion order, `<tag ... />` when the element has no children and falsy
text, otherwise text then children between the tags.  None of our trees
carry tail text. -/
def serializeTree : Tree → String
  | .mk tag attrib text children =>
      let attrs :=
        attrib.foldl (fun acc kv => acc ++ " " ++ kv.1 ++ "=\"" ++ escapeAttrib kv.2 ++ "\"") ""
      let txt : String :=
        match text with
        | none => ""
        | some s => s
      if txt = "" ∧ children.isEmpty then
        "<" ++ tag ++ attrs ++ " />"
      else
        "<" ++ tag ++ attrs ++ ">" ++ escapeCdata txt ++ serializeList children
          ++ "</" ++ tag ++ ">"
def serializeList : List Tree → String
  | [] => ""
  | t :: ts => serializeTree t ++ serializeList ts
end

/-- Function `get_xml_data` (xml_marshal.py lines 50-53): serialize the element
tree with no declaration; the byte sequence is modelled as the string of
its (ASCII) characters. -/
def get_xml_data (element : Tree) : String := serializeTree element

/-- Models `SubElement(parent, tag, text)` for a leaf child (its own children are
added separately where the source nests calls). -/
def leafEl (tag : String) (text : String) : Tree := .mk tag [] (some text) []

-- ------------------------------------------------------------------
-- Domain objects consumed by the marshallers
-- ------------------------------------------------------------------

/-- The inner dict `rules[i]['ApplyServerSideEncryptionByDefault']`:
`.get`-accessed keys are optional. -/
structure SSEByDefault where
  SSEAlgorithm : Option String
  KMSMasterKeyID : Option String

/-- One entry of the `rules` list passed to
`xml_marshal_bucket_encryption`. -/
structure SSERule where
  ApplyServerSideEncryptionByDefault : SSEByDefault

/-- The `KMSMasterKeyID` sub-elements: `if kms_text:` (xml_marshal.py
line 105) emits the element only when the value is present and non-empty. -/
def sse_kms_children (a : SSEByDefault) : List Tree :=
  match a.KMSMasterKeyID with
  | none => []
  | some s => if s = "" then [] else [leafEl "KMSMasterKeyID" s]

/-- Tree built by `xml_marshal_bucket_encryption` (xml_marshal.py lines
92-107) before serialization: `if rules:` guards the whole block and only
`rules[0]` is read. -/
def xml_marshal_bucket_encryption_tree (rules : List SSERule) : Tree :=
  match rules with
  | [] => .mk "ServerSideEncryptionConfiguration" [] none []
  | r :: _ =>
      let a := r.ApplyServerSideEncryptionByDefault
      .mk "ServerSideEncryptionConfiguration" [] none
        [.mk "Rule" [] none
          [.mk "ApplyServerSideEncryptionByDefault" [] none
            (leafEl "SSEAlgorithm" (a.SSEAlgorithm.getD "AES256")
              :: sse_kms_children a)]]

def xml_marshal_bucket_encryption (rules : List SSERule) : String :=
  get_xml_data (xml_marshal_bucket_encryption_tree rules)

/-- Function `xml_marshal_bucket_constraint` (xml_marshal.py lines 111-120). -/
def xml_marshal_bucket_constraint_tree (region : String) : Tree :=
  .mk "CreateBucketConfiguration" [("xmlns", _S3_NAMESPACE)] none
    [leafEl "LocationConstraint" region]

def xml_marshal_bucket_constraint (region : String) : String :=
  get_xml_data (xml_marshal_bucket_constraint_tree region)

/-- An entry of the `uploaded_parts` list: objects with `.part_number`
and `.etag` attributes. -/
structure UploadedPart where
  part_number : Nat
  etag : String

/-- One `Part` element (xml_marshal.py lines 184-186): `PartNumber` is
`str(part_number)`, `ETag` is the digest wrapped in literal double
quotes. -/
def partEl (p : UploadedPart) : Tree :=
  .mk "Part" [] none
    [leafEl "PartNumber" (toString p.part_number),
     leafEl "ETag" ("\"" ++ p.etag ++ "\"")]

/-- Tree built by `xml_marshal_complete_multipart_upload` (xml_marshal.py
lines 175-188): namespaced root, one `Part` child per part in list
order. -/
def xml_marshal_complete_multipart_upload_tree (uploaded_parts : List UploadedPart) : Tree :=
  .mk "CompleteMultipartUpload" [("xmlns", _S3_NAMESPACE)] none
    (uploaded_parts.map partEl)

def xml_marshal_complete_multipart_upload (uploaded_parts : List UploadedPart) : String :=
  get_xml_data (xml_marshal_complete_multipart_upload_tree uploaded_parts)

/-- Models `SubElement(SubElement(root, 'Object'), 'Key', object_name)`
(xml_marshal.py line 331). -/
def objectEl (object_name : String) : Tree :=
  .mk "Object" [] none [leafEl "Key" object_name]

/-- Tree built by `xml_marshal_delete_objects` (xml_marshal.py lines
315-332): `Quiet=true` first, then one `Object/Key` per name in input
order, no deduplication. -/
def xml_marshal_delete_objects_tree (object_names : List String) : Tree :=
  .mk "Delete" [] none (leafEl "Quiet" "true" :: object_names.map objectEl)

def xml_marshal_delete_objects (object_names : List String) : String :=
  get_xml_data (xml_marshal_delete_objects_tree object_names)

-- Select-object-content options (attribute shapes read by
-- xml_marshal_select; optional sub-objects model Python None checks).

structure CSVInputOpts where
  FileHeaderInfo : String
  RecordDelimiter : String
  FieldDelimiter : String
  QuoteCharacter : String
  QuoteEscapeCharacter : String
  Comments : String
  AllowQuotedRecordDelimiter : String

/-- Object `opts.in_ser.json_input`; the source reads its field `Type` (renamed
`jsonType` here because `Type` is a Lean keyword). -/
structure JSONInputOpts where
  jsonType : String

structure InputSerOpts where
  compression_type : String
  csv_input : Option CSVInputOpts
  json_input : Option JSONInputOpts
  parquet_input : Bool

structure CSVOutputOpts where
  QuoteFields : String
  RecordDelimiter : String
  FieldDelimiter : String
  QuoteCharacter : String
  QuoteEscapeCharacter : String

structure JSONOutputOpts where
  RecordDelimiter : String

structure OutputSerOpts where
  csv_output : Option CSVOutputOpts
  json_output : Option JSONOutputOpts

structure RequestProgressOpts where
  enabled : String

structure SelectOpts where
  expression : String
  in_ser : InputSerOpts
  out_ser : OutputSerOpts
  req_progress : RequestProgressOpts

/-- The `CSV` input block (xml_marshal.py lines 132-143), emitted only
when `opts.in_ser.csv_input` is present. -/
def selectCSVInputBlock : Option CSVInputOpts → List Tree
  | none => []
  | some c =>
      [.mk "CSV" [] none
        [leafEl "FileHeaderInfo" c.FileHeaderInfo,
         leafEl "RecordDelimiter" c.RecordDelimiter,
         leafEl "FieldDelimiter" c.FieldDelimiter,
         leafEl "QuoteCharacter" c.QuoteCharacter,
         leafEl "QuoteEscapeCharacter" c.QuoteEscapeCharacter,
         leafEl "Comments" c.Comments,
         leafEl "AllowQuotedRecordDelimiter" (pyLower c.AllowQuotedRecordDelimiter)]]

/-- The `JSON` input block (xml_marshal.py lines 145-147). -/
def selectJSONInputBlock : Option JSONInputOpts → List Tree
  | none => []
  | some j => [.mk "JSON" [] none [leafEl "Type" j.jsonType]]

/-- The `Parquet` input block (xml_marshal.py lines 149-150). -/
def selectParquetBlock (present : Bool) : List Tree :=
  if present then [.mk "Parquet" [] none []] else []

/-- The `InputSerialization` element (xml_marshal.py lines 128-150):
`CompressionType` is emitted unconditionally and first, then the CSV,
JSON and Parquet blocks each only when their option object is present. -/
def selectInputSerEl (i : InputSerOpts) : Tree :=
  .mk "InputSerialization" [] none
    (leafEl "CompressionType" i.compression_type
      :: (selectCSVInputBlock i.csv_input ++ selectJSONInputBlock i.json_input
            ++ selectParquetBlock i.parquet_input))

/-- The `OutputSerialization` element (xml_marshal.py lines 152-167). -/
def selectOutputSerEl (o : OutputSerOpts) : Tree :=
  let csvB : List Tree :=
    match o.csv_output with
    | none => []
    | some c =>
        [.mk "CSV" [] none
          [leafEl "QuoteFields" c.QuoteFields,
           leafEl "RecordDelimiter" c.RecordDelimiter,
           leafEl "FieldDelimiter" c.FieldDelimiter,
           leafEl "QuoteCharacter" c.QuoteCharacter,
           leafEl "QuoteEscapeCharacter" c.QuoteEscapeCharacter]]
  let jsonB : List Tree :=
    match o.json_output with
    | none => []
    | some j => [.mk "JSON" [] none [leafEl "RecordDelimiter" j.RecordDelimiter]]
  .mk "OutputSerialization" [] none (csvB ++ jsonB)

/-- Tree built by `xml_marshal_select` (xml_marshal.py lines 123-172). -/
def xml_marshal_select_tree (opts : SelectOpts) : Tree :=
  .mk "SelectObjectContentRequest" [] none
    [leafEl "Expression" opts.expression,
     leafEl "ExpressionType" "SQL",
     selectInputSerEl opts.in_ser,
     selectOutputSerEl opts.out_ser,
     .mk "RequestProgress" [] none
       [leafEl "Enabled" (pyLower opts.req_progress.enabled)]]

def xml_marshal_select (opts : SelectOpts) : String :=
  get_xml_data (xml_marshal_select_tree opts)

-- ------------------------------------------------------------------
-- Decode entry point
-- ------------------------------------------------------------------

/-- The exception raised by the XML parser on malformed input. -/
inductive ParseError where
  | parse_error
  deriving DecidableEq

/-- Raw decode input together with its denotation: whether the bytes are
well-formed XML and, when they are, the tree they parse to. -/
structure XMLInput where
  wellFormed : Bool
  tree : Tree

/-- Modelled from the spec: `ET.XML` (the `xml.etree.ElementTree` parser
called at xml_marshal.py line 58) is library code outside this
repository.  Per the spec it "fails with a ParseError if the input is not
well-formed XML" and otherwise yields the parsed tree. -/
def ET_XML (in_xml : XMLInput) : Except ParseError Tree :=
  if in_xml.wellFormed then Except.ok in_xml.tree
  else Except.error ParseError.parse_error

/-- Function `xml_to_dict` (xml_marshal.py lines 56-59): parse, then fold; the
parser's exception propagates untouched. -/
def xml_to_dict (in_xml : XMLInput) : Except ParseError (String × Value) :=
  match ET_XML in_xml with
  | Except.ok elem => Except.ok (etree_to_dict elem)
  | Except.error e => Except.error e

-- ------------------------------------------------------------------
-- Observers used by the statements
-- ------------------------------------------------------------------

/-- Lookup in the grouped `defaultdict` (first matching key). -/
def lookupVals (k : String) : List (String × List Value) → Option (List Value)
  | [] => none
  | (k', vs) :: rest => if k' = k then some vs else lookupVals k rest

/-- Lookup in an insertion-ordered dict. -/
def lookupEntries (k : String) : List (String × Value) → Option Value
  | [] => none
  | (k', v) :: rest => if k' = k then some v else lookupEntries k rest

/-- Models `d[k]` on a decoded value that is a mapping. -/
def vLookup (m : Value) (k : String) : Option Value :=
  match m with
  | Value.map es => lookupEntries k es
  | _ => none

/-- The values carried by key `k` among the per-child pairs, in document
order. -/
def collect (k : String) : List (String × Value) → List Value
  | [] => []
  | (k', v) :: rest => if k' = k then v :: collect k rest else collect k rest

/-- Tag has no `'\x7b'`, hence cannot contain the braced namespace marker. -/
def noBrace (s : String) : Bool := !(s.data.contains '\x7b')

/-- A tag of a document using at most the fixed namespace, uniformly: a
plain local name, or the braced namespace marker followed by a local
name. -/
def okTag (s : String) : Bool :=
  noBrace s ||
    (nsB.data.isPrefixOf s.data && noBrace (String.mk (s.data.drop nsB.data.length)))

mutual
/-- Well-formed document using at most the single fixed protocol
namespace, applied uniformly: every tag is `okTag` and attribute names
are plain. -/
def uniformNS : Tree → Bool
  | .mk tag attrib _ children =>
      okTag tag && attrib.all (fun kv => noBrace kv.1) && uniformNSList children
def uniformNSList : List Tree → Bool
  | [] => true
  | t :: ts => uniformNS t && uniformNSList ts
end

mutual
/-- No tag anywhere in the tree contains the braced namespace marker. -/
def nsFree : Tree → Bool
  | .mk tag _ _ children => !(decide (nsB.data <:+: tag.data)) && nsFreeList children
def nsFreeList : List Tree → Bool
  | [] => true
  | t :: ts => nsFree t && nsFreeList ts
end

mutual
/-- All keys appearing anywhere in a decoded value (map keys, at every
nesting depth, through lists). -/
def allKeys : Value → List String
  | .null => []
  | .str _ => []
  | .map es => allKeysEntries es
  | .list vs => allKeysList vs
def allKeysEntries : List (String × Value) → List String
  | [] => []
  | (k, v) :: rest => k :: (allKeys v ++ allKeysEntries rest)
def allKeysList : List Value → List String
  | [] => []
  | v :: vs => allKeys v ++ allKeysList vs
end

/-- Every key anywhere in a decoded value is brace-free (hence free of
the namespace marker). -/
def keysGood (v : Value) : Prop := ∀ k ∈ allKeys v, noBrace k = true

-- ------------------------------------------------------------------
-- Lemmas about the string primitives
-- ------------------------------------------------------------------

theorem string_mk_data (s : String) : String.mk s.data = s := by
  cases s
  rfl

theorem removeAllGo_of_no_occurrence (pat : List Char) :
    ∀ s, ¬ (pat <:+: s) → removeAllGo pat 0 s = s := by
  intro s
  induction s with
  | nil => intro _; rfl
  | cons c rest ih =>
      intro h
      have hcond : ¬ (pat.isPrefixOf (c :: rest) ∧ pat ≠ []) := by
        rintro ⟨hp, hne⟩
        exact h (( List.isPrefixOf_iff_prefix.mp hp).isInfix
          )
      rw [removeAllGo, if_neg hcond]
      have hrest : ¬ (pat <:+: rest) := fun hr =>
        h ( List.infix_cons_iff.mpr (Or.inr hr))
      rw [ih hrest]

theorem removeAllGo_skip (pat : List Char) :
    ∀ (l rest : List Char), removeAllGo pat l.length (l ++ rest) = removeAllGo pat 0 rest := by
  intro l
  induction l with
  | nil => intro rest; rfl
  | cons x l ih =>
      intro rest
      show removeAllGo pat (l.length + 1) (x :: (l ++ rest)) = removeAllGo pat 0 rest
      rw [removeAllGo]
      exact ih rest

theorem removeAllGo_cancel (pat : List Char) (h : pat ≠ []) (rest : List Char) :
    removeAllGo pat 0 (pat ++ rest) = removeAllGo pat 0 rest := by
  cases pat with
  | nil => exact absurd rfl h
  | cons p ps =>
      show removeAllGo (p :: ps) 0 (p :: (ps ++ rest)) = removeAllGo (p :: ps) 0 rest
      rw [removeAllGo]
      have hpre : (p :: ps).isPrefixOf (p :: (ps ++ rest)) = true := by
        exact List.isPrefixOf_iff_prefix.mpr ⟨rest, rfl⟩
      rw [if_pos ⟨hpre, h⟩]
      show removeAllGo (p :: ps) ((p :: ps).length - 1) (ps ++ rest)
        = removeAllGo (p :: ps) 0 rest
      have : (p :: ps).length - 1 = ps.length := by simp
      rw [this]
      exact removeAllGo_skip (p :: ps) ps rest

theorem lbrace_mem_nsB : ('\x7b' : Char) ∈ nsB.data := by decide

theorem noBrace_no_marker {s : String} (h : noBrace s = true) :
    ¬ (nsB.data <:+: s.data) := by
  intro hinf
  have hmem : ('\x7b' : Char) ∈ s.data := hinf.subset lbrace_mem_nsB
  simp [noBrace] at h
  exact h hmem

theorem pyRemove_of_noBrace {s : String} (h : noBrace s = true) :
    pyRemove s nsB = s := by
  unfold pyRemove
  rw [removeAllGo_of_no_occurrence _ _ (noBrace_no_marker h), string_mk_data]

theorem nsB_data_ne_nil : nsB.data ≠ [] := by decide

theorem okTag_strip {s : String} (h : okTag s = true) :
    noBrace (pyRemove s nsB) = true := by
  unfold okTag at h
  rcases Bool.or_eq_true_iff.mp h with h1 | h2
  · rw [pyRemove_of_noBrace h1]; exact h1
  · have hp := Bool.and_eq_true_iff.mp h2
    obtain ⟨t, ht⟩ := List.isPrefixOf_iff_prefix.mp hp.1
    have hdrop : s.data.drop nsB.data.length = t := by
      rw [← ht, List.drop_left]
    rw [hdrop] at hp
    have hnb : noBrace (String.mk t) = true := hp.2
    unfold pyRemove
    rw [← ht, removeAllGo_cancel _ nsB_data_ne_nil,
      removeAllGo_of_no_occurrence _ _ (noBrace_no_marker hnb)]
    exact hnb

theorem okTag_strip_no_marker {s : String} (h : okTag s = true) :
    ¬ (nsB.data <:+: (pyRemove s nsB).data) :=
  noBrace_no_marker (okTag_strip h)

-- ------------------------------------------------------------------
-- Lemmas about grouping and dict insertion
-- ------------------------------------------------------------------

theorem lookupVals_addToGroup (k k' : String) (v : Value) :
    ∀ g, lookupVals k (addToGroup g k' v)
      = if k' = k then some ((lookupVals k g).getD [] ++ [v]) else lookupVals k g := by
  intro g
  induction g with
  | nil =>
      by_cases h : k' = k
      · subst h; simp [addToGroup, lookupVals]
      · simp [addToGroup, lookupVals, h]
  | cons kv rest ih =>
      obtain ⟨k₀, vs₀⟩ := kv
      by_cases h0 : k₀ = k'
      · subst h0
        by_cases h : k₀ = k
        · subst h; simp [addToGroup, lookupVals]
        · simp [addToGroup, lookupVals, h]
      · by_cases h : k₀ = k
        · subst h
          have h' : k' ≠ k₀ := fun hh => h0 hh.symm
          simp [addToGroup, lookupVals, h0, h']
        · simp [addToGroup, lookupVals, h0, h, ih]

theorem collect_cons (k k' : String) (v : Value) (rest : List (String × Value)) :
    collect k ((k', v) :: rest)
      = if k' = k then v :: collect k rest else collect k rest := by
  rfl

theorem lookupVals_foldl_none (w : Value → Value) (k : String) :
    ∀ (pairs : List (String × Value)) (acc : List (String × List Value)),
      (lookupVals k (pairs.foldl (fun g p => addToGroup g p.1 (w p.2)) acc) = none
        ↔ lookupVals k acc = none ∧ collect k pairs = []) := by
  intro pairs
  induction pairs with
  | nil => intro acc; simp [collect]
  | cons p rest ih =>
      intro acc
      obtain ⟨kp, vp⟩ := p
      rw [List.foldl_cons]
      rw [ih (addToGroup acc kp (w vp))]
      rw [lookupVals_addToGroup, collect_cons]
      by_cases h : kp = k
      · simp [h]
      · simp [h]

theorem lookupVals_foldl_getD (w : Value → Value) (k : String) :
    ∀ (pairs : List (String × Value)) (acc : List (String × List Value)),
      (lookupVals k (pairs.foldl (fun g p => addToGroup g p.1 (w p.2)) acc)).getD []
        = (lookupVals k acc).getD [] ++ (collect k pairs).map w := by
  intro pairs
  induction pairs with
  | nil => intro acc; simp [collect]
  | cons p rest ih =>
      intro acc
      obtain ⟨kp, vp⟩ := p
      rw [List.foldl_cons]
      rw [ih (addToGroup acc kp (w vp))]
      rw [lookupVals_addToGroup, collect_cons]
      by_cases h : kp = k
      · simp [h]
      · simp [h]

theorem lookupVals_groupPairs_none (w : Value → Value) (k : String)
    (pairs : List (String × Value)) :
    lookupVals k (groupPairs w pairs) = none ↔ collect k pairs = [] := by
  unfold groupPairs
  rw [lookupVals_foldl_none]
  simp [lookupVals]

theorem lookupVals_groupPairs (w : Value → Value) (k : String)
    (pairs : List (String × Value)) (l : List Value)
    (hc : collect k pairs = l) (hne : l ≠ []) :
    lookupVals k (groupPairs w pairs) = some (l.map w) := by
  rcases hopt : lookupVals k (groupPairs w pairs) with _ | vs
  · exact absurd (hc ▸ (lookupVals_groupPairs_none w k pairs).mp hopt) hne
  · have := lookupVals_foldl_getD w k pairs []
    unfold groupPairs at hopt
    rw [hopt] at this
    simp [lookupVals, hc] at this
    rw [this]

theorem lookupEntries_finalize (k : String) :
    ∀ groups, lookupEntries k (finalize groups)
      = (lookupVals k groups).map (fun vs => match vs with
          | [v] => v
          | vs => Value.list vs) := by
  intro groups
  induction groups with
  | nil => rfl
  | cons g rest ih =>
      obtain ⟨kg, vsg⟩ := g
      by_cases h : kg = k
      · subst h; simp [finalize, lookupEntries, lookupVals]
      · simp [finalize, lookupEntries, lookupVals, h] at ih ⊢
        exact ih

theorem lookupEntries_dictInsert (k k' : String) (v : Value) :
    ∀ es, lookupEntries k (dictInsert es k' v)
      = if k' = k then some v else lookupEntries k es := by
  intro es
  induction es with
  | nil =>
      by_cases h : k' = k
      · subst h; simp [dictInsert, lookupEntries]
      · simp [dictInsert, lookupEntries, h]
  | cons kv rest ih =>
      obtain ⟨k₀, v₀⟩ := kv
      by_cases h0 : k₀ = k'
      · subst h0
        by_cases h : k₀ = k
        · subst h; simp [dictInsert, lookupEntries]
        · simp [dictInsert, lookupEntries, h]
      · by_cases h : k₀ = k
        · subst h
          have h' : k' ≠ k₀ := fun hh => h0 hh.symm
          simp [dictInsert, lookupEntries, h0, h']
        · simp [dictInsert, lookupEntries, h0, h, ih]

theorem vLookup_vInsert_ne (m : Value) (k k' : String) (v : Value) (h : k' ≠ k) :
    vLookup (vInsert m k' v) k = vLookup m k := by
  cases m with
  | map es => simp [vInsert, vLookup, lookupEntries_dictInsert, h]
  | null => rfl
  | str s => rfl
  | list vs => rfl

/-- Keys inserted by the attribute loop all start with `'@'`; lookups of
other keys pass through it. -/
theorem vLookup_attribStep (k : String) (hk : ∀ a : String, k ≠ "@" ++ a) :
    ∀ (al : List (String × String)) (m : Value),
      vLookup (attribStep al m) k = vLookup m k := by
  intro al
  induction al with
  | nil => intro m; rfl
  | cons kv rest ih =>
      intro m
      unfold attribStep at ih ⊢
      rw [List.foldl_cons, ih]
      exact vLookup_vInsert_ne m k _ _ (fun h => hk kv.1 h.symm)

/-- When the element keeps a mapping (attributes or children present),
the text step only ever adds the `#text` key. -/
theorem vLookup_textStep (text : Option String) (m : Value) (k : String)
    (hkt : k ≠ "#text") :
    vLookup (textStep text true m) k = vLookup m k := by
  cases text with
  | none => rfl
  | some s =>
      by_cases hs : s = ""
      · simp [textStep, hs]
      · by_cases ht : pyStrip s ≠ ""
        · have hstep : textStep (some s) true m
              = vInsert m "#text" (Value.str (pyStrip s)) := by
            simp [textStep, hs, ht]
          rw [hstep]
          exact vLookup_vInsert_ne m k _ _ (fun h => hkt h.symm)
        · have hstep : textStep (some s) true m = m := by
            simp [textStep, hs, ht]
          rw [hstep]

theorem ne_at_attrKey {k : String} (h : k.data.head? ≠ some '@') :
    ∀ a : String, k ≠ "@" ++ a := by
  intro a hEq
  apply h
  have : k.data = '@' :: a.data := by
    rw [hEq, String.data_append]
    rfl
  rw [this]
  rfl

theorem textKey_head : ("#text" : String).data.head? ≠ some '@' := by decide

theorem etreeListDict_eq_map : ∀ ts, etreeListDict ts = ts.map etree_to_dict := by
  intro ts
  induction ts with
  | nil => rfl
  | cons t ts ih => rw [etreeListDict, ih, List.map_cons]

theorem etree_to_dict_fst (t : Tree) : (etree_to_dict t).1 = pyRemove t.tag nsB := by
  cases t
  unfold etree_to_dict
  rfl

/-- Decoding an element with children: looking up any ordinary key (no
`'@'` prefix, not `#text`) reads the grouped-and-collapsed child dict of
lines 68-79. -/
theorem decode_lookup_children (tag : String) (attrib : List (String × String))
    (text : Option String) (c : Tree) (cs : List Tree) (k : String)
    (hk : ∀ a : String, k ≠ "@" ++ a) (hkt : k ≠ "#text") :
    vLookup (etree_to_dict (Tree.mk tag attrib text (c :: cs))).2 k
      = lookupEntries k (finalize (groupPairs (wrapOf c) (etreeListDict (c :: cs)))) := by
  have h1 : (etree_to_dict (Tree.mk tag attrib text (c :: cs))).2
      = textStep text true (attribStep attrib
          (Value.map (finalize (groupPairs (wrapOf c) (etreeListDict (c :: cs)))))) := by
    unfold etree_to_dict
    rfl
  rw [h1, vLookup_textStep _ _ _ hkt, vLookup_attribStep k hk]
  rfl

/-- Decoding a childless element never yields ordinary keys: the value is
`None`, a scalar, or a dict of `'@'`-attribute entries and `#text` only. -/
theorem decode_lookup_leaf (tag : String) (attrib : List (String × String))
    (text : Option String) (k : String)
    (hk : ∀ a : String, k ≠ "@" ++ a) (hkt : k ≠ "#text") :
    vLookup (etree_to_dict (Tree.mk tag attrib text [])).2 k = none := by
  have h1 : (etree_to_dict (Tree.mk tag attrib text [])).2
      = textStep text (!attrib.isEmpty) (attribStep attrib
          (if attrib.isEmpty then Value.null else Value.map [])) := by
    unfold etree_to_dict
    rfl
  rw [h1]
  have hd0 : vLookup (attribStep attrib
      (if attrib.isEmpty then Value.null else Value.map [])) k = none := by
    rw [vLookup_attribStep k hk]
    by_cases ha : attrib.isEmpty
    · simp [ha, vLookup]
    · simp [ha, vLookup, lookupEntries]
  cases hb : (!attrib.isEmpty) with
  | true => rw [vLookup_textStep _ _ _ hkt]; exact hd0
  | false =>
      cases text with
      | none => exact hd0
      | some s =>
          by_cases hs : s = ""
          · simp only [textStep, if_pos hs]
            exact hd0
          · by_cases ht : pyStrip s ≠ ""
            · have hstep : textStep (some s) false (attribStep attrib
                  (if attrib.isEmpty then Value.null else Value.map []))
                  = Value.str (pyStrip s) := by
                simp [textStep, hs, ht]
              rw [hstep]
              rfl
            · have hstep : textStep (some s) false (attribStep attrib
                  (if attrib.isEmpty then Value.null else Value.map []))
                  = Value.str (pyStrip s) := by
                simp [textStep, hs, ht]
              rw [hstep]
              rfl

-- ------------------------------------------------------------------
-- C1: the `Rule` wrapping rule
-- ------------------------------------------------------------------

/-- C1 counterexample: in `<Doc><A>x</A><Rule>y</Rule></Doc>` the tag
`Rule` occurs exactly once among the children, yet the decode mapping
binds it to the bare scalar rather than to a single-element list — the
wrapping of line 71 is keyed on the FIRST child's tag only, and here the
first child is `A`. -/
theorem claim_C1_counterexample :
    collect "Rule" (etreeListDict
        [Tree.mk "A" [] (some "x") [], Tree.mk "Rule" [] (some "y") []])
      = [Value.str "y"]
  ∧ vLookup (etree_to_dict (Tree.mk "Doc" [] none
        [Tree.mk "A" [] (some "x") [], Tree.mk "Rule" [] (some "y") []])).2 "Rule"
      = some (Value.str "y")
  ∧ Value.str "y" ≠ Value.list [Value.str "y"] :=
  ⟨rfl, rfl, fun h => Value.noConfusion h⟩

theorem rule_key_head : ("Rule" : String).data.head? ≠ some '@' := by decide

theorem rule_key_ne_text : ("Rule" : String) ≠ "#text" := by decide

/-- C1 (amended): the list-wrapping is decided by the first child's
stripped tag.  When that tag is `Rule`: a tag collected exactly once is
bound to a single-element list, and a tag collected `n ≥ 2` times is
bound to the list of its per-occurrence values each wrapped in a
singleton list.  Independently of any wrapping, a `Rule` tag collected
zero times is absent from the mapping. -/
theorem claim_C1_rule_wrapping (tag : String) (attrib : List (String × String))
    (text : Option String) (c : Tree) (cs : List Tree)
    (hr : pyRemove c.tag nsB = "Rule") :
    (∀ v, collect "Rule" (etreeListDict (c :: cs)) = [v] →
        vLookup (etree_to_dict (Tree.mk tag attrib text (c :: cs))).2 "Rule"
          = some (Value.list [v]))
  ∧ (∀ v₁ v₂ vs, collect "Rule" (etreeListDict (c :: cs)) = v₁ :: v₂ :: vs →
        vLookup (etree_to_dict (Tree.mk tag attrib text (c :: cs))).2 "Rule"
          = some (Value.list (Value.list [v₁] :: Value.list [v₂] :: vs.map ruleWrap)))
  ∧ (∀ t : Tree, collect "Rule" (etreeListDict t.children) = [] →
        vLookup (etree_to_dict t).2 "Rule" = none) := by
  have hk := ne_at_attrKey rule_key_head
  have hw : wrapOf c = ruleWrap := by unfold wrapOf; rw [if_pos hr]
  refine ⟨?_, ?_, ?_⟩
  · intro v hcv
    rw [decode_lookup_children tag attrib text c cs "Rule" hk rule_key_ne_text,
      lookupEntries_finalize,
      lookupVals_groupPairs (wrapOf c) "Rule" _ [v] hcv (by simp), hw]
    rfl
  · intro v₁ v₂ vs hcv
    rw [decode_lookup_children tag attrib text c cs "Rule" hk rule_key_ne_text,
      lookupEntries_finalize,
      lookupVals_groupPairs (wrapOf c) "Rule" _ (v₁ :: v₂ :: vs) hcv (by simp), hw]
    rfl
  · intro t hct
    cases t with
    | mk tag' attrib' text' children' =>
        simp only [Tree.children] at hct
        cases children' with
        | nil => exact decode_lookup_leaf tag' attrib' text' "Rule" hk rule_key_ne_text
        | cons c' cs' =>
            rw [decode_lookup_children tag' attrib' text' c' cs' "Rule" hk rule_key_ne_text,
              lookupEntries_finalize,
              (lookupVals_groupPairs_none (wrapOf c') "Rule" _).mpr hct]
            rfl

/-- Witness for C1: a document whose only child is one `Rule` element
decodes with `Rule` bound to a singleton list. -/
theorem claim_C1_rule_wrapping_witness :
    pyRemove (Tree.mk "Rule" [] (some "y") ([] : List Tree)).tag nsB = "Rule"
  ∧ vLookup (etree_to_dict (Tree.mk "Doc" [] none
        [Tree.mk "Rule" [] (some "y") []])).2 "Rule"
      = some (Value.list [Value.str "y"]) :=
  ⟨by decide,
   (claim_C1_rule_wrapping "Doc" [] none (Tree.mk "Rule" [] (some "y") []) []
      (by decide)).1 (Value.str "y") rfl⟩

-- ------------------------------------------------------------------
-- C2: grouping of tags other than `Rule`
-- ------------------------------------------------------------------

/-- C2 counterexample: in `<Doc><Rule>a</Rule><B>b</B></Doc>` the tag `B`
(not `Rule`) occurs exactly once, yet it decodes to a single-element list
rather than the scalar value: because the first child's tag is `Rule`,
line 74 wraps the values of EVERY sibling tag. -/
theorem claim_C2_counterexample :
    collect "B" (etreeListDict
        [Tree.mk "Rule" [] (some "a") [], Tree.mk "B" [] (some "b") []])
      = [Value.str "b"]
  ∧ vLookup (etree_to_dict (Tree.mk "Doc" [] none
        [Tree.mk "Rule" [] (some "a") [], Tree.mk "B" [] (some "b") []])).2 "B"
      = some (Value.list [Value.str "b"])
  ∧ Value.list [Value.str "b"] ≠ Value.str "b" :=
  ⟨rfl, rfl, fun h => Value.noConfusion h⟩

/-- C2 (amended): provided the FIRST child's stripped tag is not `Rule`,
every child tag collected exactly once is bound to its value as-is (no
list), and every tag collected `n ≥ 2` times is bound to the plain list
of its per-occurrence values in document order.  (When the first child's
tag is `Rule`, every tag — `Rule` or not — gets the singleton-list
wrapping instead, see the counterexample.) -/
theorem claim_C2_nonrule_grouping (tag : String) (attrib : List (String × String))
    (text : Option String) (c : Tree) (cs : List Tree)
    (hnr : pyRemove c.tag nsB ≠ "Rule") (k : String)
    (hk : k.data.head? ≠ some '@') (hkt : k ≠ "#text") :
    (∀ v, collect k (etreeListDict (c :: cs)) = [v] →
        vLookup (etree_to_dict (Tree.mk tag attrib text (c :: cs))).2 k = some v)
  ∧ (∀ v₁ v₂ vs, collect k (etreeListDict (c :: cs)) = v₁ :: v₂ :: vs →
        vLookup (etree_to_dict (Tree.mk tag attrib text (c :: cs))).2 k
          = some (Value.list (v₁ :: v₂ :: vs))) := by
  have hk' := ne_at_attrKey hk
  have hw : wrapOf c = id := by unfold wrapOf; rw [if_neg hnr]
  constructor
  · intro v hcv
    rw [decode_lookup_children tag attrib text c cs k hk' hkt,
      lookupEntries_finalize,
      lookupVals_groupPairs (wrapOf c) k _ [v] hcv (by simp), hw]
    rfl
  · intro v₁ v₂ vs hcv
    rw [decode_lookup_children tag attrib text c cs k hk' hkt,
      lookupEntries_finalize,
      lookupVals_groupPairs (wrapOf c) k _ (v₁ :: v₂ :: vs) hcv (by simp), hw,
      List.map_id]
    rfl

/-- Witness for C2: `<Doc><B>x</B></Doc>` binds `B` to the scalar, and
`<Doc><B>x</B><B>z</B></Doc>` binds `B` to the two values in order. -/
theorem claim_C2_nonrule_grouping_witness :
    pyRemove (Tree.mk "B" [] (some "x") ([] : List Tree)).tag nsB ≠ "Rule"
  ∧ vLookup (etree_to_dict (Tree.mk "Doc" [] none
        [Tree.mk "B" [] (some "x") []])).2 "B" = some (Value.str "x")
  ∧ vLookup (etree_to_dict (Tree.mk "Doc" [] none
        [Tree.mk "B" [] (some "x") [], Tree.mk "B" [] (some "z") []])).2 "B"
      = some (Value.list [Value.str "x", Value.str "z"]) :=
  ⟨by decide,
   (claim_C2_nonrule_grouping "Doc" [] none (Tree.mk "B" [] (some "x") []) []
      (by decide) "B" (by decide) (by decide)).1 (Value.str "x") rfl,
   (claim_C2_nonrule_grouping "Doc" [] none (Tree.mk "B" [] (some "x") [])
      [Tree.mk "B" [] (some "z") []]
      (by decide) "B" (by decide) (by decide)).2 (Value.str "x") (Value.str "z") [] rfl⟩

-- ------------------------------------------------------------------
-- C3: the fold mutates the input tree
-- ------------------------------------------------------------------

theorem etreeFinalList_length : ∀ ts : List Tree, (etreeFinalList ts).length = ts.length := by
  intro ts
  induction ts with
  | nil => rfl
  | cons t ts ih => rw [etreeFinalList, List.length_cons, List.length_cons, ih]

theorem etreeFinalList_of_fixed :
    ∀ ts : List Tree, (∀ c ∈ ts, etreeFinalTree c = c) → etreeFinalList ts = ts := by
  intro ts
  induction ts with
  | nil => intro _; rfl
  | cons t ts ih =>
      intro h
      rw [etreeFinalList, h t (List.mem_cons_self t ts),
        ih (fun c hc => h c (List.mem_cons_of_mem t hc))]

theorem nsFreeList_mem :
    ∀ ts : List Tree, nsFreeList ts = true → ∀ c ∈ ts, nsFree c = true := by
  intro ts
  induction ts with
  | nil => intro _ c hc; exact absurd hc (List.not_mem_nil c)
  | cons t ts ih =>
      intro h c hc
      rw [nsFreeList, Bool.and_eq_true_iff] at h
      rcases List.mem_cons.mp hc with h1 | h1
      · rw [h1]; exact h.1
      · exact ih h.2 c h1

theorem sizeOf_mem_children (tag : String) (attrib : List (String × String))
    (text : Option String) (children : List Tree) (c : Tree) (h : c ∈ children) :
    sizeOf c < sizeOf (Tree.mk tag attrib text children) := by
  have h1 := List.sizeOf_lt_of_mem h
  simp only [Tree.mk.sizeOf_spec]
  omega

theorem etreeFinalTree_of_nsFree :
    ∀ (n : Nat) (t : Tree), sizeOf t ≤ n → nsFree t = true → etreeFinalTree t = t := by
  intro n
  induction n with
  | zero =>
      intro t h
      cases t with
      | mk tag attrib text children => simp [Tree.mk.sizeOf_spec] at h
  | succ n ih =>
      intro t hle hfree
      cases t with
      | mk tag attrib text children =>
          rw [nsFree, Bool.and_eq_true_iff] at hfree
          have htag : pyRemove tag nsB = tag := by
            unfold pyRemove
            rw [removeAllGo_of_no_occurrence _ _ (by simpa using hfree.1), string_mk_data]
          rw [etreeFinalTree, htag, etreeFinalList_of_fixed]
          intro c hc
          have hsz : sizeOf c ≤ n := by
            have := sizeOf_mem_children tag attrib text children c hc
            omega
          exact ih c hsz (nsFreeList_mem children hfree.2 c hc)

/-- C3 counterexample: the fold does modify the input tree.  On a root
whose tag carries the namespace marker, the tag after the call differs
from the tag before the call (it has been stripped in place by line 65),
so the tree is not left unmodified. -/
theorem claim_C3_counterexample :
    (etreeFinalTree (Tree.mk (nsB ++ "Foo") [] none [])).tag
        ≠ (Tree.mk (nsB ++ "Foo") [] none []).tag
  ∧ etreeFinalTree (Tree.mk (nsB ++ "Foo") [] none [])
        ≠ Tree.mk (nsB ++ "Foo") [] none [] := by
  have h1 : (etreeFinalTree (Tree.mk (nsB ++ "Foo") [] none [])).tag
      ≠ (Tree.mk (nsB ++ "Foo") [] none []).tag := by decide
  exact ⟨h1, fun h => h1 (congrArg Tree.tag h)⟩

/-- C3 (amended): the fold's only effect is the in-place rewrite of each
visited node's tag to its namespace-stripped form; the result value is a
function of the input tree alone, attributes, text and child count are
untouched, and a tree none of whose tags contains the namespace marker is
left exactly as it was. -/
theorem claim_C3_mutation (t : Tree) :
    (etreeFinalTree t).tag = pyRemove t.tag nsB
  ∧ (etreeFinalTree t).attrib = t.attrib
  ∧ (etreeFinalTree t).text = t.text
  ∧ ((etreeFinalTree t).children).length = t.children.length
  ∧ (nsFree t = true → etreeFinalTree t = t) := by
  refine ⟨?_, ?_, ?_, ?_, etreeFinalTree_of_nsFree (sizeOf t) t le_rfl⟩
  · cases t; rw [etreeFinalTree]; rfl
  · cases t; rw [etreeFinalTree]; rfl
  · cases t; rw [etreeFinalTree]; rfl
  · cases t with
    | mk tag attrib text children =>
        rw [etreeFinalTree]
        exact etreeFinalList_length children

/-- Witness for C3 (amended): a small namespace-free document passes
through the fold unchanged. -/
theorem claim_C3_mutation_witness :
    nsFree (Tree.mk "Doc" [] none [Tree.mk "A" [] none []]) = true
  ∧ etreeFinalTree (Tree.mk "Doc" [] none [Tree.mk "A" [] none []])
      = Tree.mk "Doc" [] none [Tree.mk "A" [] none []] :=
  ⟨by decide, (claim_C3_mutation _).2.2.2.2 (by decide)⟩

-- ------------------------------------------------------------------
-- C4: the `#text` rule and leaf decoding
-- ------------------------------------------------------------------

theorem collect_eq_nil (k : String) :
    ∀ pairs : List (String × Value), (∀ p ∈ pairs, p.1 ≠ k) → collect k pairs = [] := by
  intro pairs
  induction pairs with
  | nil => intro _; rfl
  | cons p rest ih =>
      intro h
      obtain ⟨kp, vp⟩ := p
      rw [collect_cons, if_neg (h (kp, vp) (List.mem_cons_self _ _)),
        ih (fun q hq => h q (List.mem_cons_of_mem _ hq))]

theorem attribStep_map (al : List (String × String)) :
    ∀ es, ∃ es', attribStep al (Value.map es) = Value.map es' := by
  induction al with
  | nil => intro es; exact ⟨es, rfl⟩
  | cons kv rest ih =>
      intro es
      have h1 : attribStep (kv :: rest) (Value.map es)
          = attribStep rest (Value.map (dictInsert es ("@" ++ kv.1) (Value.str kv.2))) := rfl
      rw [h1]
      exact ih _

theorem textKey_ne_at : ∀ a : String, ("#text" : String) ≠ "@" ++ a :=
  ne_at_attrKey textKey_head

theorem vLookup_vInsert_self (es : List (String × Value)) (k : String) (v : Value) :
    vLookup (vInsert (Value.map es) k v) k = some v := by
  simp [vInsert, vLookup, lookupEntries_dictInsert]

/-- C4 counterexample: a leaf with neither attributes nor children whose
text is the (present) empty string decodes to `None`, not to its trimmed
text as a scalar — `if elem.text:` (line 82) treats the empty string like
absent text. -/
theorem claim_C4_counterexample :
    (etree_to_dict (Tree.mk "A" [] (some "") [])).2 = Value.null
  ∧ Value.null ≠ Value.str (pyStrip "") :=
  ⟨rfl, fun h => Value.noConfusion h⟩

/-- C4 (amended): (a) the decoded value of an element (whose children do
not decode to the reserved key) contains the `#text` key iff the
element's text is non-empty after trimming AND the element also has
attributes or children; (b) an element with neither attributes nor
children decodes to `None` when its text is absent OR the empty string,
and to its trimmed text as a plain scalar otherwise. -/
theorem claim_C4_text_rule :
    (∀ t : Tree, (∀ c ∈ t.children, pyRemove c.tag nsB ≠ "#text") →
      ((vLookup (etree_to_dict t).2 "#text").isSome = true
        ↔ (pyStrip (t.text.getD "") ≠ "" ∧ (t.attrib ≠ [] ∨ t.children ≠ []))))
  ∧ (∀ (tag : String) (text : Option String),
      (etree_to_dict (Tree.mk tag [] text [])).2
        = match text with
          | none => Value.null
          | some s => if s = "" then Value.null else Value.str (pyStrip s)) := by
  constructor
  · intro t hc
    cases t with
    | mk tag attrib text children =>
        simp only [Tree.children, Tree.attrib, Tree.text] at hc ⊢
        cases children with
        | cons c cs =>
            have h1 : (etree_to_dict (Tree.mk tag attrib text (c :: cs))).2
                = textStep text true (attribStep attrib (Value.map
                    (finalize (groupPairs (wrapOf c) (etreeListDict (c :: cs)))))) := by
              unfold etree_to_dict
              rfl
            have hnone : vLookup (attribStep attrib (Value.map
                (finalize (groupPairs (wrapOf c) (etreeListDict (c :: cs)))))) "#text"
                = none := by
              rw [vLookup_attribStep _ textKey_ne_at]
              show lookupEntries "#text" (finalize _) = none
              rw [lookupEntries_finalize,
                (lookupVals_groupPairs_none _ _ _).mpr]
              · rfl
              · apply collect_eq_nil
                intro p hp
                rw [etreeListDict_eq_map] at hp
                obtain ⟨c', hc', hp'⟩ := List.mem_map.mp hp
                rw [← hp', etree_to_dict_fst]
                exact hc c' hc'
            rw [h1]
            cases text with
            | none =>
                simp only [textStep, hnone, Option.isSome_none, Option.getD_none]
                simp [pyStrip]
            | some s =>
                by_cases hs : s = ""
                · have hstep : textStep (some s) true (attribStep attrib (Value.map
                      (finalize (groupPairs (wrapOf c) (etreeListDict (c :: cs)))))) =
                      attribStep attrib (Value.map
                      (finalize (groupPairs (wrapOf c) (etreeListDict (c :: cs))))) := by
                    simp [textStep, hs]
                  rw [hstep, hnone]
                  simp [hs, pyStrip]
                · by_cases ht : pyStrip s = ""
                  · have hstep : textStep (some s) true (attribStep attrib (Value.map
                        (finalize (groupPairs (wrapOf c) (etreeListDict (c :: cs)))))) =
                        attribStep attrib (Value.map
                        (finalize (groupPairs (wrapOf c) (etreeListDict (c :: cs))))) := by
                      simp [textStep, hs, ht]
                    rw [hstep, hnone]
                    simp [ht]
                  · have hstep : textStep (some s) true (attribStep attrib (Value.map
                        (finalize (groupPairs (wrapOf c) (etreeListDict (c :: cs)))))) =
                        vInsert (attribStep attrib (Value.map
                          (finalize (groupPairs (wrapOf c) (etreeListDict (c :: cs))))))
                          "#text" (Value.str (pyStrip s)) := by
                      simp [textStep, hs, ht]
                    rw [hstep]
                    obtain ⟨es', hes'⟩ := attribStep_map attrib
                      (finalize (groupPairs (wrapOf c) (etreeListDict (c :: cs))))
                    rw [hes', vLookup_vInsert_self]
                    simp [ht]
        | nil =>
            cases hattrib : attrib with
            | nil =>
                have h1 : (etree_to_dict (Tree.mk tag [] text [])).2
                    = textStep text false Value.null := by
                  unfold etree_to_dict
                  rfl
                rw [h1]
                cases text with
                | none => simp [textStep, vLookup, pyStrip]
                | some s =>
                    by_cases hs : s = ""
                    · simp [textStep, hs, vLookup, pyStrip]
                    · have hstep : textStep (some s) false Value.null
                          = Value.str (pyStrip s) := by
                        simp [textStep, hs]
                      rw [hstep]
                      simp [vLookup]
            | cons a as =>
                have h1 : (etree_to_dict (Tree.mk tag (a :: as) text [])).2
                    = textStep text true (attribStep (a :: as) (Value.map [])) := by
                  unfold etree_to_dict
                  rfl
                have hnone : vLookup (attribStep (a :: as) (Value.map [])) "#text"
                    = none := by
                  rw [vLookup_attribStep _ textKey_ne_at]
                  rfl
                rw [h1]
                cases text with
                | none =>
                    simp only [textStep, hnone, Option.isSome_none, Option.getD_none]
                    simp [pyStrip]
                | some s =>
                    by_cases hs : s = ""
                    · have hstep : textStep (some s) true (attribStep (a :: as) (Value.map []))
                          = attribStep (a :: as) (Value.map []) := by
                        simp [textStep, hs]
                      rw [hstep, hnone]
                      simp [hs, pyStrip]
                    · by_cases ht : pyStrip s = ""
                      · have hstep : textStep (some s) true (attribStep (a :: as) (Value.map []))
                            = attribStep (a :: as) (Value.map []) := by
                          simp [textStep, hs, ht]
                        rw [hstep, hnone]
                        simp [ht]
                      · have hstep : textStep (some s) true (attribStep (a :: as) (Value.map []))
                            = vInsert (attribStep (a :: as) (Value.map []))
                                "#text" (Value.str (pyStrip s)) := by
                          simp [textStep, hs, ht]
                        rw [hstep]
                        obtain ⟨es', hes'⟩ := attribStep_map (a :: as) []
                        rw [hes', vLookup_vInsert_self]
                        simp [ht]
  · intro tag text
    cases text with
    | none => rfl
    | some s =>
        have h1 : (etree_to_dict (Tree.mk tag [] (some s) [])).2
            = textStep (some s) false Value.null := by
          unfold etree_to_dict
          rfl
        rw [h1]
        by_cases hs : s = ""
        · simp [textStep, hs]
        · simp [textStep, hs]

/-- Witness for C4: an element with an attribute and text ` hi ` carries
`#text = "hi"`, and a bare leaf with text decodes to the trimmed
scalar. -/
theorem claim_C4_text_rule_witness :
    (∀ c ∈ (Tree.mk "A" [("k", "v")] (some " hi ") []).children,
        pyRemove c.tag nsB ≠ "#text")
  ∧ ((vLookup (etree_to_dict (Tree.mk "A" [("k", "v")] (some " hi ") [])).2
        "#text").isSome = true
      ↔ (pyStrip ((Tree.mk "A" [("k", "v")] (some " hi ") []).text.getD "") ≠ ""
          ∧ ((Tree.mk "A" [("k", "v")] (some " hi ") []).attrib ≠ []
              ∨ (Tree.mk "A" [("k", "v")] (some " hi ") []).children ≠ [])))
  ∧ (etree_to_dict (Tree.mk "A" [] (some " hi ") [])).2
      = (match some " hi " with
          | none => Value.null
          | some s => if s = "" then Value.null else Value.str (pyStrip s)) :=
  ⟨fun c hc => absurd hc (List.not_mem_nil c),
   claim_C4_text_rule.1 (Tree.mk "A" [("k", "v")] (some " hi ") [])
     (fun c hc => absurd hc (List.not_mem_nil c)),
   claim_C4_text_rule.2 "A" (some " hi ")⟩

-- ------------------------------------------------------------------
-- C5, C6, C7, C8, C10
-- ------------------------------------------------------------------

/-- C5: on a non-empty rule list the bucket-encryption marshaller emits
exactly one `Rule` → `ApplyServerSideEncryptionByDefault` block, built
from the first rule only (the output for `r :: rs` equals the output for
`[r]`); `SSEAlgorithm` text defaults to `AES256` when the rule does not
specify an algorithm; and no `KMSMasterKeyID` element is present when
the rule has no key id. -/
theorem claim_C5_bucket_encryption (r : SSERule) (rs : List SSERule) :
    (xml_marshal_bucket_encryption_tree (r :: rs)).children
      = [Tree.mk "Rule" [] none
          [Tree.mk "ApplyServerSideEncryptionByDefault" [] none
            (leafEl "SSEAlgorithm"
                (r.ApplyServerSideEncryptionByDefault.SSEAlgorithm.getD "AES256")
              :: sse_kms_children r.ApplyServerSideEncryptionByDefault)]]
  ∧ (r.ApplyServerSideEncryptionByDefault.SSEAlgorithm = none →
      (leafEl "SSEAlgorithm"
          (r.ApplyServerSideEncryptionByDefault.SSEAlgorithm.getD "AES256")).text
        = some "AES256")
  ∧ (r.ApplyServerSideEncryptionByDefault.KMSMasterKeyID = none →
      sse_kms_children r.ApplyServerSideEncryptionByDefault = [])
  ∧ xml_marshal_bucket_encryption (r :: rs) = xml_marshal_bucket_encryption [r] := by
  refine ⟨rfl, ?_, ?_, rfl⟩
  · intro h
    rw [h]
    rfl
  · intro h
    unfold sse_kms_children
    rw [h]

/-- Witness for C5: a rule specifying neither algorithm nor key id gets
the `AES256` default and no `KMSMasterKeyID` element. -/
theorem claim_C5_bucket_encryption_witness :
    sse_kms_children ⟨none, none⟩ = []
  ∧ (leafEl "SSEAlgorithm" ((none : Option String).getD "AES256")).text
      = some "AES256" :=
  ⟨(claim_C5_bucket_encryption ⟨⟨none, none⟩⟩ []).2.2.1 rfl,
   (claim_C5_bucket_encryption ⟨⟨none, none⟩⟩ []).2.1 rfl⟩

/-- C6: `xml_to_dict` returns the decoded mapping exactly on well-formed
input and propagates the parser's `ParseError` exactly on malformed
input (the parser itself is library code, modelled from the spec). -/
theorem claim_C6_parse_contract (in_xml : XMLInput) :
    xml_to_dict in_xml
      = if in_xml.wellFormed then Except.ok (etree_to_dict in_xml.tree)
        else Except.error ParseError.parse_error := by
  unfold xml_to_dict ET_XML
  cases h : in_xml.wellFormed <;> simp [h]

/-- C7: the complete-multipart-upload marshaller emits one `Part` per
uploaded part in caller-supplied order, each with a `PartNumber` element
and an `ETag` element whose text is the digest wrapped in literal double
quotes; the list `[(1,"abc"), (2,"def")]` yields exactly those two `Part`
elements in that order. -/
theorem claim_C7_multipart (uploaded_parts : List UploadedPart) :
    (xml_marshal_complete_multipart_upload_tree uploaded_parts).children
      = uploaded_parts.map partEl
  ∧ (∀ p : UploadedPart, partEl p
      = Tree.mk "Part" [] none
          [Tree.mk "PartNumber" [] (some (toString p.part_number)) [],
           Tree.mk "ETag" [] (some ("\"" ++ p.etag ++ "\"")) []])
  ∧ (xml_marshal_complete_multipart_upload_tree
        [⟨1, "abc"⟩, ⟨2, "def"⟩]).children
      = [Tree.mk "Part" [] none
          [Tree.mk "PartNumber" [] (some "1") [],
           Tree.mk "ETag" [] (some "\"abc\"") []],
         Tree.mk "Part" [] none
          [Tree.mk "PartNumber" [] (some "2") [],
           Tree.mk "ETag" [] (some "\"def\"") []]] :=
  ⟨rfl, fun _ => rfl, rfl⟩

/-- C8: the batch-delete marshaller emits a `Delete` root whose first
child is `Quiet` with text `true`, then one `Object`/`Key` per input name
in input order with no deduplication; for `["a.txt", "b.txt"]` the output
bytes are exactly the claimed document. -/
theorem claim_C8_delete_objects (object_names : List String) :
    (xml_marshal_delete_objects_tree object_names).children
      = leafEl "Quiet" "true" :: object_names.map objectEl
  ∧ leafEl "Quiet" "true" = Tree.mk "Quiet" [] (some "true") []
  ∧ (∀ n : String, objectEl n
      = Tree.mk "Object" [] none [Tree.mk "Key" [] (some n) []])
  ∧ xml_marshal_delete_objects ["a.txt", "b.txt"]
      = "<Delete><Quiet>true</Quiet><Object><Key>a.txt</Key></Object><Object><Key>b.txt</Key></Object></Delete>" :=
  ⟨rfl, rfl, fun _ => rfl, rfl⟩

theorem selectCSVInputBlock_tags (o : Option CSVInputOpts) :
    ∀ e ∈ selectCSVInputBlock o, e.tag = "CSV" := by
  cases o with
  | none => intro e he; exact absurd he (List.not_mem_nil e)
  | some c =>
      intro e he
      rw [List.mem_singleton.mp he]
      rfl

theorem selectJSONInputBlock_tags (o : Option JSONInputOpts) :
    ∀ e ∈ selectJSONInputBlock o, e.tag = "JSON" := by
  cases o with
  | none => intro e he; exact absurd he (List.not_mem_nil e)
  | some j =>
      intro e he
      rw [List.mem_singleton.mp he]
      rfl

theorem selectParquetBlock_tags (b : Bool) :
    ∀ e ∈ selectParquetBlock b, e.tag = "Parquet" := by
  cases b with
  | false => intro e he; exact absurd he (List.not_mem_nil e)
  | true =>
      intro e he
      rw [List.mem_singleton.mp he]
      rfl

/-- C10: whichever input-serialization variant is populated, the select
marshaller emits `CompressionType` as the first child of
`InputSerialization` (the third child of the request root), before every
variant-specific block. -/
theorem claim_C10_select_compression (opts : SelectOpts) :
    (xml_marshal_select_tree opts).children.get? 2 = some (selectInputSerEl opts.in_ser)
  ∧ (selectInputSerEl opts.in_ser).children.head?
      = some (leafEl "CompressionType" opts.in_ser.compression_type)
  ∧ (∀ e ∈ (selectInputSerEl opts.in_ser).children.tail,
      e.tag = "CSV" ∨ e.tag = "JSON" ∨ e.tag = "Parquet") := by
  refine ⟨rfl, rfl, ?_⟩
  intro e he
  have htail : (selectInputSerEl opts.in_ser).children.tail
      = selectCSVInputBlock opts.in_ser.csv_input
          ++ selectJSONInputBlock opts.in_ser.json_input
          ++ selectParquetBlock opts.in_ser.parquet_input := rfl
  rw [htail] at he
  rcases List.mem_append.mp he with h1 | h1
  · rcases List.mem_append.mp h1 with h2 | h2
    · exact Or.inl (selectCSVInputBlock_tags _ e h2)
    · exact Or.inr (Or.inl (selectJSONInputBlock_tags _ e h2))
  · exact Or.inr (Or.inr (selectParquetBlock_tags _ e h1))

-- ------------------------------------------------------------------
-- C9: namespace stripping produces namespace-free keys
-- ------------------------------------------------------------------

theorem keysGood_null : keysGood Value.null := by
  intro k hk
  exact absurd hk (List.not_mem_nil k)

theorem keysGood_str (s : String) : keysGood (Value.str s) := by
  intro k hk
  exact absurd hk (List.not_mem_nil k)

theorem keysGood_empty_map : keysGood (Value.map []) := by
  intro k hk
  exact absurd hk (List.not_mem_nil k)

theorem allKeysList_mem :
    ∀ (vs : List Value) (k : String), k ∈ allKeysList vs → ∃ v ∈ vs, k ∈ allKeys v := by
  intro vs
  induction vs with
  | nil => intro k hk; exact absurd hk (List.not_mem_nil k)
  | cons v vs ih =>
      intro k hk
      rw [allKeysList] at hk
      rcases List.mem_append.mp hk with h1 | h1
      · exact ⟨v, List.mem_cons_self v vs, h1⟩
      · obtain ⟨v', hv', hk'⟩ := ih k h1
        exact ⟨v', List.mem_cons_of_mem v hv', hk'⟩

theorem allKeysEntries_mem :
    ∀ (es : List (String × Value)) (k : String), k ∈ allKeysEntries es →
      (∃ p ∈ es, k = p.1) ∨ (∃ p ∈ es, k ∈ allKeys p.2) := by
  intro es
  induction es with
  | nil => intro k hk; exact absurd hk (List.not_mem_nil k)
  | cons p es ih =>
      intro k hk
      obtain ⟨kp, vp⟩ := p
      rw [allKeysEntries] at hk
      rcases List.mem_cons.mp hk with h1 | h1
      · exact Or.inl ⟨(kp, vp), List.mem_cons_self _ _, h1⟩
      · rcases List.mem_append.mp h1 with h2 | h2
        · exact Or.inr ⟨(kp, vp), List.mem_cons_self _ _, h2⟩
        · rcases ih k h2 with ⟨q, hq, hqk⟩ | ⟨q, hq, hqk⟩
          · exact Or.inl ⟨q, List.mem_cons_of_mem _ hq, hqk⟩
          · exact Or.inr ⟨q, List.mem_cons_of_mem _ hq, hqk⟩

theorem keysGood_list_of_mem (vs : List Value) (h : ∀ v ∈ vs, keysGood v) :
    keysGood (Value.list vs) := by
  intro k hk
  have hk' : k ∈ allKeysList vs := hk
  obtain ⟨v, hv, hkv⟩ := allKeysList_mem vs k hk'
  exact h v hv k hkv

theorem keysGood_ruleWrap (v : Value) (h : keysGood v) : keysGood (ruleWrap v) := by
  apply keysGood_list_of_mem
  intro v' hv'
  rw [List.mem_singleton.mp hv']
  exact h

theorem wrapOf_cases (c : Tree) : wrapOf c = ruleWrap ∨ wrapOf c = id := by
  unfold wrapOf
  by_cases h : pyRemove c.tag nsB = "Rule"
  · rw [if_pos h]; exact Or.inl rfl
  · rw [if_neg h]; exact Or.inr rfl

theorem keysGood_wrapOf (c : Tree) (v : Value) (h : keysGood v) :
    keysGood (wrapOf c v) := by
  rcases wrapOf_cases c with hw | hw
  · rw [hw]; exact keysGood_ruleWrap v h
  · rw [hw]; exact h

/-- The invariant carried by each group of the `defaultdict`. -/
theorem addToGroup_pres (k : String) (v : Value)
    (hk : noBrace k = true) (hv : keysGood v) :
    ∀ g, (∀ p ∈ g, noBrace p.1 = true ∧ ∀ x ∈ p.2, keysGood x) →
      ∀ p ∈ addToGroup g k v, noBrace p.1 = true ∧ ∀ x ∈ p.2, keysGood x := by
  intro g
  induction g with
  | nil =>
      intro _ p hp
      rw [List.mem_singleton.mp hp]
      exact ⟨hk, fun x hx => by rw [List.mem_singleton.mp hx]; exact hv⟩
  | cons q rest ih =>
      intro hg p hp
      obtain ⟨kq, vsq⟩ := q
      by_cases h : kq = k
      · rw [addToGroup, if_pos h] at hp
        rcases List.mem_cons.mp hp with h1 | h1
        · subst h1
          have hq := hg (kq, vsq) (List.mem_cons_self _ _)
          refine ⟨hq.1, fun x hx => ?_⟩
          rcases List.mem_append.mp hx with h2 | h2
          · exact hq.2 x h2
          · rw [List.mem_singleton.mp h2]; exact hv
        · exact hg p (List.mem_cons_of_mem _ h1)
      · rw [addToGroup, if_neg h] at hp
        rcases List.mem_cons.mp hp with h1 | h1
        · subst h1; exact hg (kq, vsq) (List.mem_cons_self _ _)
        · exact ih (fun q' hq' => hg q' (List.mem_cons_of_mem _ hq')) p h1

theorem groupPairs_foldl_pres (w : Value → Value) :
    ∀ (pairs : List (String × Value)) (acc : List (String × List Value)),
      (∀ p ∈ acc, noBrace p.1 = true ∧ ∀ x ∈ p.2, keysGood x) →
      (∀ p ∈ pairs, noBrace p.1 = true ∧ keysGood (w p.2)) →
      ∀ p ∈ pairs.foldl (fun g p => addToGroup g p.1 (w p.2)) acc,
        noBrace p.1 = true ∧ ∀ x ∈ p.2, keysGood x := by
  intro pairs
  induction pairs with
  | nil => intro acc hacc _; exact hacc
  | cons q rest ih =>
      intro acc hacc hp
      rw [List.foldl_cons]
      apply ih
      · have hq := hp q (List.mem_cons_self _ _)
        exact addToGroup_pres q.1 (w q.2) hq.1 hq.2 acc hacc
      · intro p hpm
        exact hp p (List.mem_cons_of_mem _ hpm)

theorem keysGood_finalize (groups : List (String × List Value))
    (hg : ∀ p ∈ groups, noBrace p.1 = true ∧ ∀ x ∈ p.2, keysGood x) :
    keysGood (Value.map (finalize groups)) := by
  intro k hk
  have hk' : k ∈ allKeysEntries (finalize groups) := hk
  rcases allKeysEntries_mem _ k hk' with ⟨p, hp, hkp⟩ | ⟨p, hp, hkp⟩
  · obtain ⟨g, hgm, hpg⟩ := List.mem_map.mp hp
    have := hg g hgm
    rw [hkp, ← hpg]
    exact this.1
  · obtain ⟨g, hgm, hpg⟩ := List.mem_map.mp hp
    have hGg := hg g hgm
    rw [← hpg] at hkp
    rcases hvs : g.2 with _ | ⟨v₁, vs'⟩
    · rw [hvs] at hkp
      exact absurd hkp (List.not_mem_nil k)
    · rcases hvs' : vs' with _ | ⟨v₂, vs''⟩
      · rw [hvs, hvs'] at hkp
        exact hGg.2 v₁ (by rw [hvs, hvs']; exact List.mem_singleton.mpr rfl) k hkp
      · rw [hvs, hvs'] at hkp
        have : keysGood (Value.list (v₁ :: v₂ :: vs'')) := by
          apply keysGood_list_of_mem
          intro v hv
          exact hGg.2 v (by rw [hvs, hvs']; exact hv)
        exact this k hkp

theorem allKeysEntries_dictInsert :
    ∀ (es : List (String × Value)) (k : String) (v : Value) (k' : String),
      k' ∈ allKeysEntries (dictInsert es k v) →
        k' = k ∨ k' ∈ allKeys v ∨ k' ∈ allKeysEntries es := by
  intro es
  induction es with
  | nil =>
      intro k v k' h
      rw [dictInsert, allKeysEntries] at h
      rcases List.mem_cons.mp h with h1 | h1
      · exact Or.inl h1
      · rw [allKeysEntries, List.append_nil] at h1
        exact Or.inr (Or.inl h1)
  | cons p es ih =>
      intro k v k' h
      obtain ⟨kp, vp⟩ := p
      by_cases hkp : kp = k
      · rw [dictInsert, if_pos hkp, allKeysEntries] at h
        rcases List.mem_cons.mp h with h1 | h1
        · exact Or.inl (h1.trans hkp)
        · rcases List.mem_append.mp h1 with h2 | h2
          · exact Or.inr (Or.inl h2)
          · refine Or.inr (Or.inr ?_)
            rw [allKeysEntries]
            exact List.mem_cons_of_mem kp (List.mem_append.mpr (Or.inr h2))
      · rw [dictInsert, if_neg hkp, allKeysEntries] at h
        rcases List.mem_cons.mp h with h1 | h1
        · refine Or.inr (Or.inr ?_)
          rw [allKeysEntries]
          exact List.mem_cons.mpr (Or.inl h1)
        · rcases List.mem_append.mp h1 with h2 | h2
          · refine Or.inr (Or.inr ?_)
            rw [allKeysEntries]
            exact List.mem_cons_of_mem kp (List.mem_append.mpr (Or.inl h2))
          · rcases ih k v k' h2 with h3 | h3 | h3
            · exact Or.inl h3
            · exact Or.inr (Or.inl h3)
            · refine Or.inr (Or.inr ?_)
              rw [allKeysEntries]
              exact List.mem_cons_of_mem kp (List.mem_append.mpr (Or.inr h3))

theorem keysGood_vInsert (m : Value) (k : String) (v : Value)
    (hm : keysGood m) (hk : noBrace k = true) (hv : keysGood v) :
    keysGood (vInsert m k v) := by
  cases m with
  | map es =>
      intro k' hk'
      have hk'' : k' ∈ allKeysEntries (dictInsert es k v) := hk'
      rcases allKeysEntries_dictInsert es k v k' hk'' with h | h | h
      · rw [h]; exact hk
      · exact hv k' h
      · exact hm k' h
  | null => exact hm
  | str s => exact hm
  | list vs => exact hm

theorem noBrace_at (a : String) (h : noBrace a = true) :
    noBrace ("@" ++ a) = true := by
  have hd : ("@" ++ a).data = '@' :: a.data := by
    rw [String.data_append]
    rfl
  simp [noBrace, hd] at h ⊢
  exact h

theorem keysGood_attribStep (al : List (String × String))
    (hal : ∀ kv ∈ al, noBrace kv.1 = true) :
    ∀ m, keysGood m → keysGood (attribStep al m) := by
  induction al with
  | nil => intro m hm; exact hm
  | cons kv rest ih =>
      intro m hm
      have h1 : attribStep (kv :: rest) m
          = attribStep rest (vInsert m ("@" ++ kv.1) (Value.str kv.2)) := rfl
      rw [h1]
      apply ih (fun q hq => hal q (List.mem_cons_of_mem _ hq))
      exact keysGood_vInsert m _ _ hm
        (noBrace_at kv.1 (hal kv (List.mem_cons_self _ _)))
        (keysGood_str kv.2)

theorem noBrace_textKey : noBrace "#text" = true := by decide

theorem keysGood_textStep (text : Option String) (b : Bool) (m : Value)
    (hm : keysGood m) : keysGood (textStep text b m) := by
  cases text with
  | none => exact hm
  | some s =>
      by_cases hs : s = ""
      · have h1 : textStep (some s) b m = m := by simp [textStep, hs]
        rw [h1]; exact hm
      · cases b with
        | false =>
            have h1 : textStep (some s) false m = Value.str (pyStrip s) := by
              simp [textStep, hs]
            rw [h1]; exact keysGood_str _
        | true =>
            by_cases ht : pyStrip s ≠ ""
            · have h1 : textStep (some s) true m
                  = vInsert m "#text" (Value.str (pyStrip s)) := by
                simp [textStep, hs, ht]
              rw [h1]
              exact keysGood_vInsert m _ _ hm noBrace_textKey (keysGood_str _)
            · have h1 : textStep (some s) true m = m := by simp [textStep, hs, ht]
              rw [h1]; exact hm

theorem uniformNSList_mem :
    ∀ ts : List Tree, uniformNSList ts = true → ∀ c ∈ ts, uniformNS c = true := by
  intro ts
  induction ts with
  | nil => intro _ c hc; exact absurd hc (List.not_mem_nil c)
  | cons t ts ih =>
      intro h c hc
      rw [uniformNSList, Bool.and_eq_true_iff] at h
      rcases List.mem_cons.mp hc with h1 | h1
      · rw [h1]; exact h.1
      · exact ih h.2 c h1

/-- Main induction for C9: under the uniform-namespace assumption, the
decoded tag and every key of the decoded value are brace-free. -/
theorem decode_keys_noBrace :
    ∀ (n : Nat) (t : Tree), sizeOf t ≤ n → uniformNS t = true →
      noBrace (etree_to_dict t).1 = true ∧ keysGood (etree_to_dict t).2 := by
  intro n
  induction n with
  | zero =>
      intro t h
      cases t with
      | mk tag attrib text children => simp [Tree.mk.sizeOf_spec] at h
  | succ n ih =>
      intro t hle hu
      cases t with
      | mk tag attrib text children =>
          rw [uniformNS, Bool.and_eq_true_iff] at hu
          have hu1 := Bool.and_eq_true_iff.mp hu.1
          have hTag : noBrace (pyRemove tag nsB) = true := okTag_strip hu1.1
          have hAttr : ∀ kv ∈ attrib, noBrace kv.1 = true := by
            intro kv hkv
            have := List.all_eq_true.mp hu1.2 kv hkv
            simpa using this
          constructor
          · rw [etree_to_dict_fst]; exact hTag
          · cases children with
            | nil =>
                have h2 : (etree_to_dict (Tree.mk tag attrib text [])).2
                    = textStep text (!attrib.isEmpty) (attribStep attrib
                        (if attrib.isEmpty then Value.null else Value.map [])) := by
                  unfold etree_to_dict
                  rfl
                rw [h2]
                apply keysGood_textStep
                apply keysGood_attribStep attrib hAttr
                cases ha : attrib.isEmpty with
                | true => exact keysGood_null
                | false => exact keysGood_empty_map
            | cons c cs =>
                have h2 : (etree_to_dict (Tree.mk tag attrib text (c :: cs))).2
                    = textStep text true (attribStep attrib (Value.map
                        (finalize (groupPairs (wrapOf c) (etreeListDict (c :: cs)))))) := by
                  unfold etree_to_dict
                  rfl
                rw [h2]
                apply keysGood_textStep
                apply keysGood_attribStep attrib hAttr
                apply keysGood_finalize
                apply groupPairs_foldl_pres (wrapOf c) _ []
                  (fun p hp => absurd hp (List.not_mem_nil p))
                intro p hp
                have hp' : p ∈ (c :: cs).map etree_to_dict := by
                  rw [← etreeListDict_eq_map]
                  exact hp
                obtain ⟨c', hc', hpc⟩ := List.mem_map.mp hp'
                have hsz : sizeOf c' ≤ n := by
                  have := sizeOf_mem_children tag attrib text (c :: cs) c' hc'
                  omega
                have hcu : uniformNS c' = true :=
                  uniformNSList_mem (c :: cs) hu.2 c' hc'
                have hgood := ih c' hsz hcu
                rw [← hpc]
                exact ⟨hgood.1, keysGood_wrapOf c _ hgood.2⟩

/-- C9: for every well-formed document using at most the single fixed
protocol namespace, applied uniformly, decoding yields a mapping none of
whose keys (including the root tag, at every depth) contains the braced
namespace marker — the prefix is stripped from every node's tag before it
is used as a key. -/
theorem claim_C9_namespace_stripping (t : Tree) (h : uniformNS t = true) :
    ¬ (nsB.data <:+: (etree_to_dict t).1.data)
  ∧ ∀ k ∈ allKeys (etree_to_dict t).2, ¬ (nsB.data <:+: k.data) := by
  have hg := decode_keys_noBrace (sizeOf t) t le_rfl h
  exact ⟨noBrace_no_marker hg.1, fun k hk => noBrace_no_marker (hg.2 k hk)⟩

/-- Witness for C9: a two-level document with namespace-qualified tags
decodes to namespace-free keys. -/
theorem claim_C9_namespace_stripping_witness :
    uniformNS (Tree.mk (nsB ++ "Root") [] none
        [Tree.mk (nsB ++ "Rule") [] (some "x") []]) = true
  ∧ (¬ (nsB.data <:+: (etree_to_dict (Tree.mk (nsB ++ "Root") [] none
        [Tree.mk (nsB ++ "Rule") [] (some "x") []])).1.data)
      ∧ ∀ k ∈ allKeys (etree_to_dict (Tree.mk (nsB ++ "Root") [] none
          [Tree.mk (nsB ++ "Rule") [] (some "x") []])).2,
          ¬ (nsB.data <:+: k.data)) :=
  ⟨by decide,
   claim_C9_namespace_stripping
     (Tree.mk (nsB ++ "Root") [] none [Tree.mk (nsB ++ "Rule") [] (some "x") []])
     (by decide)⟩

end MinioXml
